import Mathlib

/-!
# Verification of the zero_g WNN circuit construction

Shallow embedding of the zero_g repository (a zero-knowledge argument for
weightless-neural-network inference) and proofs about it.

Embedded source files:
- `src/utils.rs` (`integer_division`, `decompose_word`)
- `src/gadgets/bits2num.rs` (`Bits2NumChip::convert_be` / `convert_le`)
- `src/gadgets/wnn.rs` (`WnnChip::predict`, `WnnCircuit::synthesize`)
- `src/io.rs` (threshold quantization in `load_wnn`)

The circuit is instantiated over the bn256 scalar field `Fr` (see `io.rs`),
modelled here as `ZMod frP` with `frP` the Fr modulus. `Fr::NUM_BITS = 254`,
`Fr::CAPACITY = 253`, and `Fr::to_repr()` is 32 bytes, i.e. 256 bits.

Leaf gadgets whose sources are not part of the repository snapshot
(`greater_than.rs`, `hash.rs`, `bloom_filter.rs`, `response_accumulator.rs`)
are modelled from the specification; each such definition carries a
`Modelled from the spec` note in its doc comment.
-/

/-- Modulus of the bn256 scalar field `Fr`, the field the circuit is
instantiated with in `io.rs`. -/
def frP : ℕ := 21888242871839275222246405745257275088548364400416034343698204186575808495617

/-- The circuit's native field. -/
abbrev F := ZMod frP

/-- `Fr::CAPACITY`: the number of bits that can always be represented
without overflowing the field (`NUM_BITS - 1 = 253` for bn256 `Fr`). -/
def CAPACITY : ℕ := 253

/-- `Fr::to_repr()` is 32 little-endian bytes, so `to_le_bits` yields
256 bits. -/
def REPR_BITS : ℕ := 256

/-- `F::from(b as u64)` for a boolean `b`. -/
def toFBit (b : Bool) : F := if b then 1 else 0

/-! ## `Bits2NumChip` (`src/gadgets/bits2num.rs`)

`convert_be` folds the bit cells left to right, starting from a constant
zero cell: `num_val = num_val * 2 + bits[i]`. `convert_le` reverses the
bits and delegates to `convert_be`. -/

/-- Value computed by `Bits2NumChip::convert_be`'s accumulator loop
(`num_val = num_val * Value::known(F::from(2)) + bits[i].value()`). -/
def convert_be_val (bits : List F) : F :=
  bits.foldl (fun acc b => acc * 2 + b) 0

/-- Value computed by `Bits2NumChip::convert_le`: the bits are reversed
(little to big endian) and passed to `convert_be`. -/
def convert_le_val (bits : List F) : F :=
  convert_be_val bits.reverse

/-- Constraint events emitted during synthesis.  The binarization stage of
`WnnChip::predict` emits `constOne` (a constant-one cell for a zero
threshold), `gtWitness` (a fresh `greater_than_witness` call allocating the
pixel's intensity cell) and `gtCopy` (a `greater_than_copy` call reusing a
cached intensity cell through an equality constraint).  `Bits2NumChip`
emits one `assignConstZero` for the initial accumulator cell, one
`composeGate` per bit (the `next = prev * 2 + bit` custom gate) and one
`copyBit` equality constraint per bit. -/
inductive Event where
  | constOne (i j : ℕ)
  | gtWitness (i j : ℕ) (v t : ℕ)
  | gtCopy (i j : ℕ) (v t : ℕ)
  | assignConstZero
  | composeGate (prev bit next : F)
  | copyBit (bit : F)
deriving DecidableEq, Repr

/-- The gate/copy events emitted by the loop body of `convert_be`,
carrying the running accumulator. -/
def b2nSteps (acc : F) : List F → List Event
  | [] => []
  | b :: bs => .composeGate acc b (acc * 2 + b) :: .copyBit b :: b2nSteps (acc * 2 + b) bs

/-- Trace of `Bits2NumChip::convert_be`: the constant-zero initial
accumulator cell followed by one gate (and one bit copy) per input bit. -/
def convert_be_trace (bits : List F) : List Event :=
  .assignConstZero :: b2nSteps 0 bits

/-- `Bits2NumChip::convert_be` including its two runtime assertions, in
source order: `assert_eq!(bits.len(), num_bit_size)` then
`assert!(num_bit_size <= F::CAPACITY)`; a failed assertion is a fatal
construction-time panic, modelled as `Except.error`. -/
def convert_be_checked (num_bit_size : ℕ) (bits : List F) : Except String F :=
  if bits.length ≠ num_bit_size then .error "Incorrect amount of bits provided!"
  else if CAPACITY < num_bit_size then .error "Number of bits is too large!"
  else .ok (convert_be_val bits)

/-- `Bits2NumChip::convert_le` with its assertions: reverse, delegate. -/
def convert_le_checked (num_bit_size : ℕ) (bits : List F) : Except String F :=
  convert_be_checked num_bit_size bits.reverse

/-! ## `src/utils.rs` -/

/-- `utils::integer_division`: interprets the canonical representative of
`x` as an integer (`BigUint::from_bytes_le(x.to_repr())`, i.e. `x.val`),
divides by `divisor`, and converts the quotient back through
`u64::try_from(...).unwrap()` followed by `F::from`.  The `unwrap` panics
when the quotient does not fit in 64 bits, modelled as `none`. -/
def integer_division (x : F) (divisor : ℕ) : Option F :=
  let quotient := x.val / divisor
  if quotient < 2 ^ 64 then some ((quotient : ℕ) : F) else none

/-- `PrimeFieldBits::to_le_bits` on bn256 `Fr`: the little-endian bits of
the canonical representative, one per repr bit. -/
def to_le_bits (x : F) : List Bool :=
  (List.range REPR_BITS).map (fun k => x.val.testBit k)

/-- Fuel-driven worker for `chunksExact`; the fuel only serves as a
structural termination measure and is immaterial once it dominates the
list length (`chunksExactGo_congr`). -/
def chunksExactGo (n : ℕ) : ℕ → List α → List (List α)
  | 0, _ => []
  | fuel + 1, l =>
    if 0 < n ∧ n ≤ l.length then l.take n :: chunksExactGo n fuel (l.drop n) else []

/-- `slice::chunks_exact`: the list of consecutive full chunks of length
`n`; a trailing remainder shorter than `n` is dropped.  (Rust panics when
`n = 0`; callers guard that case, and this model returns `[]` there.) -/
def chunksExact (n : ℕ) (l : List α) : List (List α) :=
  chunksExactGo n l.length l

/-- `utils::decompose_word`: take the `num_windows * window_num_bits`
least-significant bits of `word` (little endian), split them into exact
windows of `window_num_bits` bits, and fold each window most-significant
bit first (`chunk.iter().rev().fold(F::ZERO, acc * two + bit)`). -/
def decompose_word (word : F) (num_windows window_num_bits : ℕ) : List F :=
  (chunksExact window_num_bits ((to_le_bits word).take (num_windows * window_num_bits))).map
    (fun chunk => chunk.reverse.foldl (fun acc b => acc * 2 + toFBit b) 0)

/-! ## Threshold quantization (`src/io.rs`, `load_wnn`)

The stored thresholds are multiplied by `255.0`, then mapped through
`x.ceil().max(0.0).min(256.0) as u16`.  The arithmetic is modelled over
`ℚ` (exact arithmetic; the boundary inputs `0.0` and `1.0` and the
constants `255.0`, `256.0` are exactly representable in `f32`). -/

/-- Quantization of one stored threshold value in `load_wnn`. -/
def quantize_threshold (x : ℚ) : ℕ :=
  (min (max ⌈x * 255⌉ 0) 256).toNat

/-! ## Binarization stage of `WnnChip::predict` (`src/gadgets/wnn.rs`)

The triple loop over bit-planes `b`, pixel rows `i` and columns `j`
emits one bit cell per `(b, i, j)`: a constant one when the threshold is
zero, otherwise a greater-than comparison against `threshold - 1`.  The
first comparison of a pixel allocates its intensity witness and caches it
in `intensity_cells`; later comparisons reuse the cached cell through
`greater_than_copy`. -/

/-- Modelled from the spec (`greater_than.rs` is not part of the
snapshot): `greaterThan(v, t)` returns the boolean witness `v > t`;
the reused-witness path (`greaterThanCopy`) yields the same bit for
identical `(v, t)`. -/
def greater_than_val (v t : ℕ) : Bool := decide (t < v)

/-- State of the binarization loop: the `intensity_cells` cache (keyed by
pixel coordinate, in insertion order), the emitted bit cells and the
emitted constraint events. -/
structure BinState where
  cache : List (ℕ × ℕ)
  bits : List Bool
  events : List Event
deriving DecidableEq, Repr

/-- One iteration of the binarization loop, at indices `(b, i, j)`. -/
def binStep (thresh : ℕ → ℕ → ℕ → ℕ) (img : ℕ → ℕ → ℕ) (s : BinState) :
    ℕ × ℕ × ℕ → BinState
  | (b, i, j) =>
    if thresh i j b = 0 then
      -- If the threshold is zero, the bit is always one.
      { s with bits := s.bits ++ [true], events := s.events ++ [.constOne i j] }
    else
      let t := thresh i j b - 1
      if (i, j) ∈ s.cache then
        { s with bits := s.bits ++ [greater_than_val (img i j) t],
                 events := s.events ++ [.gtCopy i j (img i j) t] }
      else
        { cache := s.cache ++ [(i, j)],
          bits := s.bits ++ [greater_than_val (img i j) t],
          events := s.events ++ [.gtWitness i j (img i j) t] }

/-- Column indices of one pixel row: `for j in 0..height`. -/
def rowList (i H : ℕ) : List (ℕ × ℕ) := (List.range H).map (fun j => (i, j))

/-- Pixel indices in loop order: `for i in 0..width { for j in 0..height }`. -/
def pixList (W H : ℕ) : List (ℕ × ℕ) := (List.range W).flatMap (fun i => rowList i H)

/-- Full iteration space of the binarization loop, outermost loop over
bit-planes: `for b in 0..shape[2] { for i { for j } }`. -/
def idxList (B W H : ℕ) : List (ℕ × ℕ × ℕ) :=
  (List.range B).flatMap (fun b => (pixList W H).map (fun p => (b, p.1, p.2)))

/-- The binarization loop of `WnnChip::predict`. -/
def binarize (thresh : ℕ → ℕ → ℕ → ℕ) (img : ℕ → ℕ → ℕ) (B W H : ℕ) : BinState :=
  (idxList B W H).foldl (binStep thresh img) ⟨[], [], []⟩

/-- The bit emitted for plane `b` and pixel `(i, j)`. -/
def bitVal (thresh : ℕ → ℕ → ℕ → ℕ) (img : ℕ → ℕ → ℕ) (b i j : ℕ) : Bool :=
  if thresh i j b = 0 then true else greater_than_val (img i j) (thresh i j b - 1)

/-- Whether some earlier bit-plane already compared pixel `(i, j)` against
a nonzero threshold (and hence allocated its intensity witness). -/
def seenBefore (thresh : ℕ → ℕ → ℕ → ℕ) (b i j : ℕ) : Bool :=
  (List.range b).any (fun k => thresh i j k ≠ 0)

/-- The event emitted for plane `b` and pixel `(i, j)`, as a function of
whether the pixel's intensity witness exists (`seen`). -/
def eventGiven (thresh : ℕ → ℕ → ℕ → ℕ) (img : ℕ → ℕ → ℕ) (seen : Bool) (b i j : ℕ) :
    Event :=
  if thresh i j b = 0 then .constOne i j
  else if seen then .gtCopy i j (img i j) (thresh i j b - 1)
  else .gtWitness i j (img i j) (thresh i j b - 1)

/-- The event emitted for plane `b` and pixel `(i, j)` in the full run. -/
def eventVal (thresh : ℕ → ℕ → ℕ → ℕ) (img : ℕ → ℕ → ℕ) (b i j : ℕ) : Event :=
  eventGiven thresh img (seenBefore thresh b i j) b i j

/-! ## `WnnChip` and `WnnCircuit` (`src/gadgets/wnn.rs`) -/

/-- Modelled from the spec (`hash.rs` is not part of the snapshot):
`hash(x) = x³ mod p`, computed on the canonical integer representative,
deterministic. -/
def hash_val (p : ℕ) (x : F) : F := ((x.val ^ 3) % p : ℕ)

/-- Modelled from the spec (`bloom_filter.rs` is not part of the
snapshot): `lookup(hashValue, rowIndex) = table[rowIndex][hashValue]`
against the flattened `(classes · inputs) × entries` boolean table. -/
def bloom_lookup (table : List (List Bool)) (hash : F) (array_index : ℕ) : Bool :=
  (table.getD array_index []).getD hash.val false

/-- Modelled from the spec (`response_accumulator.rs` is not part of the
snapshot): `accumulate(responses) = popcount(responses)`, built as a
running-sum chain. -/
def accumulate_responses (responses : List Bool) : F :=
  responses.foldl (fun acc r => acc + toFBit r) 0

/-- `Result`-returning `collect` over an iterator of fallible items
(short-circuits on the first error), as used by `predict` for the
`Bits2Num` conversions. -/
def mapExcept (f : α → Except String β) : List α → Except String (List β)
  | [] => .ok []
  | a :: l =>
    match f a with
    | .error e => .error e
    | .ok b =>
      match mapExcept f l with
      | .error e => .error e
      | .ok bs => .ok (b :: bs)

/-- The `WnnChip` as built by `WnnChip::construct`: the bloom filter
arrays are already flattened from shape `(C, N, E)` to `(C · N, E)`
(a pure reshape), and `n_classes`/`n_inputs` record the first two shape
dimensions. -/
structure WnnChipModel where
  bloom_filter_arrays : List (List Bool)
  binarization_thresholds : ℕ → ℕ → ℕ → ℕ
  bits_per_input : ℕ
  input_permutation : List ℕ
  n_classes : ℕ
  n_inputs : ℕ
  p : ℕ
  n_bits : ℕ

/-- The bit cells produced by the binarization stage of `predict`. -/
def predict_bits (m : WnnChipModel) (W H : ℕ) (img : ℕ → ℕ → ℕ) : List Bool :=
  (binarize m.binarization_thresholds img m.bits_per_input W H).bits

/-- The permutation step of `predict`:
`input_permutation.iter().map(|i| bit_cells[*i as usize].clone())` — a
pure relabeling of existing bit cells. -/
def permuted_inputs (m : WnnChipModel) (W H : ℕ) (img : ℕ → ℕ → ℕ) : List Bool :=
  m.input_permutation.map (fun k => (predict_bits m W H img).getD k false)

/-- The joint input values of `predict`: the permuted bits are split into
exact chunks of `n_bits` and each chunk is composed little-endian. -/
def joint_inputs_val (m : WnnChipModel) (W H : ℕ) (img : ℕ → ℕ → ℕ) : List F :=
  (chunksExact m.n_bits (permuted_inputs m W H img)).map
    (fun chunk => convert_le_val (chunk.map toFBit))

/-- The hash values of `predict`. -/
def predict_hashes (m : WnnChipModel) (W H : ℕ) (img : ℕ → ℕ → ℕ) : List F :=
  (joint_inputs_val m W H img).map (hash_val m.p)

/-- The bloom responses of one class `c`:
`for (i, hash) in hashes.enumerate(): bloom_lookup(hash, c * hashes.len() + i)`. -/
def class_responses (m : WnnChipModel) (W H : ℕ) (img : ℕ → ℕ → ℕ) (c : ℕ) : List Bool :=
  (predict_hashes m W H img).enum.map
    (fun pr => bloom_lookup m.bloom_filter_arrays pr.2
      (c * (predict_hashes m W H img).length + pr.1))

/-- The per-class scores of `predict`. -/
def predict_scores (m : WnnChipModel) (W H : ℕ) (img : ℕ → ℕ → ℕ) : List F :=
  (List.range m.n_classes).map (fun c => accumulate_responses (class_responses m W H img c))

/-- The in-loop `assert!(threshold <= 256)` over the whole iteration
space. -/
def thresholds_ok (m : WnnChipModel) (W H : ℕ) : Bool :=
  (List.range m.bits_per_input).all (fun b =>
    (List.range W).all (fun i =>
      (List.range H).all (fun j => m.binarization_thresholds i j b ≤ 256)))

/-- `WnnChip::predict`, including every construction-time failure it can
raise, in source order: the threshold assertion inside the binarization
loop; the out-of-bounds panic of `bit_cells[*i as usize]` when a
permutation value exceeds the bit count; the `chunks_exact` panic on a
zero chunk size; the two assertions inside each `Bits2Num::convert_be`
call; and `assert_eq!(self.n_inputs, joint_inputs.len())`.  On success it
returns the per-class score witnesses in class order. -/
def predict (m : WnnChipModel) (W H : ℕ) (img : ℕ → ℕ → ℕ) : Except String (List F) :=
  if ¬ thresholds_ok m W H then .error "assertion failed: threshold <= 256"
  else if m.input_permutation.any (fun k => (predict_bits m W H img).length ≤ k) then
    .error "index out of bounds"
  else if m.n_bits = 0 then .error "chunk size must be non-zero"
  else
    match mapExcept (fun chunk => convert_le_checked m.n_bits (chunk.map toFBit))
        (chunksExact m.n_bits (permuted_inputs m W H img)) with
    | .error e => .error e
    | .ok joint =>
      if m.n_inputs ≠ joint.length then
        .error "assertion failed: n_inputs == joint_inputs.len()"
      else
        let hs := joint.map (hash_val m.p)
        .ok ((List.range m.n_classes).map (fun c =>
          accumulate_responses (hs.enum.map (fun pr =>
            bloom_lookup m.bloom_filter_arrays pr.2 (c * hs.length + pr.1)))))

/-- The constraint-event trace of `predict` through the composition
stage: the binarization events followed directly by the `Bits2Num`
events of each chunk of the (relabeled) permuted bits.  The permutation
step between the two assigns no cell and emits no constraint. -/
def predict_trace (m : WnnChipModel) (W H : ℕ) (img : ℕ → ℕ → ℕ) : List Event :=
  (binarize m.binarization_thresholds img m.bits_per_input W H).events ++
    (chunksExact m.n_bits (permuted_inputs m W H img)).flatMap
      (fun chunk => convert_be_trace (chunk.map toFBit).reverse)

/-- `WnnCircuit::synthesize`: run `predict`, then bind the `i`-th result
cell to row `i` of the instance column
(`layouter.constrain_instance(result[i].cell(), instance_column, i)`).
Returns the (score, public-output-slot) pairs. -/
def wnn_synthesize (m : WnnChipModel) (W H : ℕ) (img : ℕ → ℕ → ℕ) :
    Except String (List (F × ℕ)) :=
  match predict m W H img with
  | .error e => .error e
  | .ok result => .ok (result.enum.map (fun pr => (pr.2, pr.1)))

instance [DecidableEq ε] [DecidableEq α] : DecidableEq (Except ε α) := fun x y =>
  match x, y with
  | .ok a, .ok b =>
    if h : a = b then isTrue (by rw [h])
    else isFalse (by intro hc; injection hc; exact h (by assumption))
  | .error e, .error f =>
    if h : e = f then isTrue (by rw [h])
    else isFalse (by intro hc; injection hc; exact h (by assumption))
  | .ok _, .error _ => isFalse (fun hc => Except.noConfusion hc)
  | .error _, .ok _ => isFalse (fun hc => Except.noConfusion hc)

/-! ## Properties of `Bits2NumChip` (claims C3, C8) -/

/-- The accumulator value after the first `k` steps of `convert_be`. -/
def accAt (bits : List F) (k : ℕ) : F := convert_be_val (bits.take k)

/-- Recognizes the `next = prev * 2 + bit` gate events. -/
def isComposeGate : Event → Bool
  | .composeGate _ _ _ => true
  | _ => false

/-! ## Bit composition / decomposition round trip (claim C4) -/

/-- Natural-number value of a big-endian bit sequence. -/
def natBe (s : List Bool) : ℕ := s.foldl (fun acc b => acc * 2 + b.toNat) 0

/-- Natural-number value of a little-endian bit sequence. -/
def natLe (s : List Bool) : ℕ := natBe s.reverse

/-! ## Intensity-witness reuse (claim C9) -/

/-- Recognizes a fresh intensity-witness allocation for pixel `(i, j)`. -/
def isIntensityWitnessFor (i j : ℕ) : Event → Bool
  | .gtWitness a c _ _ => decide (a = i ∧ c = j)
  | _ => false

/-- All-ones threshold tensor (every threshold nonzero). -/
def exThresh1 : ℕ → ℕ → ℕ → ℕ := fun _ _ _ => 1

/-- All-zero 1×2 example image. -/
def exImg0 : ℕ → ℕ → ℕ := fun _ _ => 0

/-- A well-formed example chip: one class, two one-bit filter inputs over
a 1×2 image, identity permutation. -/
def exModel : WnnChipModel :=
  { bloom_filter_arrays := [[true, false], [false, false]]
    binarization_thresholds := exThresh1
    bits_per_input := 1
    input_permutation := [0, 1]
    n_classes := 1
    n_inputs := 2
    p := 7
    n_bits := 1 }

/-- A malformed example chip: the permutation `[0, 0, 1]` is not a
bijection on `[0, totalBits) = [0, 2)` (index 0 is reused, and the
permutation has length 3 while there are only 2 binarized bits), and the
window size 2 does not divide the permuted bit count 3. -/
def exModelBad : WnnChipModel :=
  { bloom_filter_arrays := [[false, false, false, false]]
    binarization_thresholds := exThresh1
    bits_per_input := 1
    input_permutation := [0, 0, 1]
    n_classes := 1
    n_inputs := 1
    p := 7
    n_bits := 2 }

theorem chunksExactGo_congr (n : ℕ) :
    ∀ (f₁ : ℕ) (l : List α) (f₂ : ℕ), l.length ≤ f₁ → l.length ≤ f₂ →
      chunksExactGo n f₁ l = chunksExactGo n f₂ l := by
  intro f₁
  induction f₁ with
  | zero =>
    intro l f₂ h₁ _
    have hl : l = [] := List.eq_nil_of_length_eq_zero (Nat.le_zero.mp h₁)
    subst hl
    cases f₂ with
    | zero => rfl
    | succ g =>
      simp only [chunksExactGo, List.length_nil]
      rw [if_neg]
      rintro ⟨hn, hn0⟩
      omega
  | succ f ih =>
    intro l f₂ h₁ h₂
    cases l with
    | nil =>
      cases f₂ with
      | zero => simp only [chunksExactGo]; rw [if_neg]; rintro ⟨hn, hn0⟩; simp at hn0; omega
      | succ g =>
        simp only [chunksExactGo, List.length_nil]
        rw [if_neg, if_neg] <;> (rintro ⟨hn, hn0⟩; omega)
    | cons a t =>
      cases f₂ with
      | zero => simp at h₂
      | succ g =>
        simp only [chunksExactGo]
        by_cases hc : 0 < n ∧ n ≤ (a :: t).length
        · rw [if_pos hc, if_pos hc]
          have hlen : ((a :: t).drop n).length ≤ f := by
            simp only [List.length_drop]
            simp only [List.length_cons] at h₁ ⊢
            omega
          have hlen2 : ((a :: t).drop n).length ≤ g := by
            simp only [List.length_drop]
            simp only [List.length_cons] at h₂ ⊢
            omega
          rw [ih _ _ hlen hlen2]
        · rw [if_neg hc, if_neg hc]

/-- One-step unfolding of `chunksExact`. -/
theorem chunksExact_eq (n : ℕ) (l : List α) :
    chunksExact n l =
      if 0 < n ∧ n ≤ l.length then l.take n :: chunksExact n (l.drop n) else [] := by
  cases l with
  | nil =>
    simp only [chunksExact, List.length_nil, chunksExactGo]
    rw [if_neg]
    rintro ⟨hn, hn0⟩
    omega
  | cons a t =>
    simp only [chunksExact, List.length_cons, chunksExactGo]
    by_cases hc : 0 < n ∧ n ≤ (a :: t).length
    · simp only [List.length_cons] at hc
      rw [if_pos hc, if_pos hc]
      congr 1
      apply chunksExactGo_congr
      · simp only [List.length_drop, List.length_cons]
        omega
      · exact le_refl _
    · simp only [List.length_cons] at hc
      rw [if_neg hc, if_neg hc]

/-! ## Generic list lemmas -/

theorem bool_eq_of_iff {a b : Bool} (h : a = true ↔ b = true) : a = b := by
  cases a <;> cases b <;> simp_all

theorem getD_map_lt (f : α → β) (l : List α) (k : ℕ) (d : β) (d₀ : α)
    (h : k < l.length) : (l.map f).getD k d = f (l.getD k d₀) := by
  rw [List.getD_eq_getElem _ _ (by simpa using h), List.getElem_map,
    List.getD_eq_getElem _ _ h]

theorem getD_range (n k d : ℕ) (h : k < n) : (List.range n).getD k d = k := by
  rw [List.getD_eq_getElem _ _ (by simpa using h), List.getElem_range]

theorem length_flatMap_const (L : List α) (g : α → List β) (n : ℕ)
    (h : ∀ a ∈ L, (g a).length = n) : (L.flatMap g).length = L.length * n := by
  induction L with
  | nil => simp
  | cons a t ih =>
    simp only [List.flatMap_cons, List.length_append, List.length_cons]
    rw [h a (by simp), ih (fun x hx => h x (by simp [hx]))]
    ring

theorem getD_range_flatMap :
    ∀ (M : ℕ) (g : ℕ → List β) (n b i : ℕ) (d : β),
      (∀ x, (g x).length = n) → b < M → i < n →
      ((List.range M).flatMap g).getD (b * n + i) d = (g b).getD i d := by
  intro M
  induction M with
  | zero => intro g n b i d _ hb _; omega
  | succ M ih =>
    intro g n b i d hlen hb hi
    rw [List.range_succ_eq_map, List.flatMap_cons, List.flatMap_map]
    cases b with
    | zero =>
      simp only [Nat.zero_mul, Nat.zero_add]
      exact List.getD_append _ _ _ _ (by rw [hlen]; exact hi)
    | succ b =>
      rw [List.getD_append_right _ _ _ _ (by rw [hlen]; nlinarith)]
      have harith : (b + 1) * n + i - (g 0).length = b * n + i := by
        rw [hlen]; ring_nf; omega
      rw [harith]
      exact ih (fun x => g (x + 1)) n b i d (fun x => hlen (x + 1)) (by omega) hi

theorem map_getD_range_self (l : List α) (d : α) :
    (List.range l.length).map (fun k => l.getD k d) = l := by
  induction l with
  | nil => simp
  | cons a t ih =>
    rw [List.length_cons, List.range_succ_eq_map, List.map_cons, List.map_map]
    have hc : ((fun k => (a :: t).getD k d) ∘ Nat.succ) = fun k => t.getD k d := by
      funext k
      simp [List.getD_cons_succ]
    rw [hc, ih]
    rfl

theorem enumFrom_map_getD (f : ℕ → α → β) (d : α) :
    ∀ (l : List α) (s : ℕ),
      (List.enumFrom s l).map (fun pr => f pr.1 pr.2) =
        (List.range l.length).map (fun i => f (s + i) (l.getD i d)) := by
  intro l
  induction l with
  | nil => intro s; simp
  | cons a t ih =>
    intro s
    rw [List.enumFrom_cons, List.map_cons, List.length_cons, List.range_succ_eq_map,
      List.map_cons, List.map_map, ih (s + 1)]
    congr 1
    apply List.map_congr_left
    intro k _
    simp only [Function.comp_apply, List.getD_cons_succ]
    congr 1
    omega

theorem enum_map_getD (f : ℕ → α → β) (d : α) (l : List α) :
    l.enum.map (fun pr => f pr.1 pr.2) =
      (List.range l.length).map (fun i => f i (l.getD i d)) := by
  rw [List.enum, enumFrom_map_getD f d l 0]
  apply List.map_congr_left
  intro k _
  simp

theorem sum_range_indicator (B b0 : ℕ) :
    ((List.range B).map (fun b => if b = b0 then 1 else 0)).sum =
      if b0 < B then 1 else 0 := by
  induction B with
  | zero => simp
  | succ B ih =>
    rw [List.range_succ, List.map_append, List.sum_append, ih]
    simp only [List.map_cons, List.map_nil, List.sum_cons, List.sum_nil]
    split_ifs <;> omega

theorem foldl_take_succ :
    ∀ (bits : List F) (k : ℕ) (acc : F), k < bits.length →
      List.foldl (fun a b => a * 2 + b) acc (bits.take (k + 1)) =
        List.foldl (fun a b => a * 2 + b) acc (bits.take k) * 2 + bits.getD k 0 := by
  intro bits
  induction bits with
  | nil => intro k acc h; simp at h
  | cons b t ih =>
    intro k acc h
    cases k with
    | zero => simp
    | succ k =>
      simp only [List.take_succ_cons, List.foldl_cons, List.getD_cons_succ]
      exact ih k (acc * 2 + b) (by simpa using h)

theorem b2nSteps_getD_gate :
    ∀ (bits : List F) (acc : F) (k : ℕ) (d : Event), k < bits.length →
      (b2nSteps acc bits).getD (2 * k) d =
        .composeGate (List.foldl (fun a b => a * 2 + b) acc (bits.take k))
          (bits.getD k 0)
          (List.foldl (fun a b => a * 2 + b) acc (bits.take k) * 2 + bits.getD k 0) := by
  intro bits
  induction bits with
  | nil => intro acc k d h; simp at h
  | cons b t ih =>
    intro acc k d h
    cases k with
    | zero => simp [b2nSteps]
    | succ k =>
      have h2 : 2 * (k + 1) = 2 * k + 1 + 1 := by ring
      simp only [b2nSteps, h2, List.getD_cons_succ, List.take_succ_cons, List.foldl_cons,
        List.getD_cons_succ]
      exact ih (acc * 2 + b) k d (by simpa using h)

theorem b2nSteps_countP_gates :
    ∀ (bits : List F) (acc : F), (b2nSteps acc bits).countP isComposeGate = bits.length := by
  intro bits
  induction bits with
  | nil => intro acc; simp [b2nSteps]
  | cons b t ih =>
    intro acc
    simp only [b2nSteps, List.countP_cons, List.length_cons]
    rw [ih (acc * 2 + b)]
    simp [isComposeGate]

theorem b2nSteps_gate_rel :
    ∀ (bits : List F) (acc : F) (p b nx : F),
      Event.composeGate p b nx ∈ b2nSteps acc bits → nx = p * 2 + b := by
  intro bits
  induction bits with
  | nil => intro acc p b nx h; simp [b2nSteps] at h
  | cons c t ih =>
    intro acc p b nx h
    simp only [b2nSteps, List.mem_cons] at h
    rcases h with h | h | h
    · injection h with h1 h2 h3
      rw [h1, h2, h3]
    · exact Event.noConfusion h
    · exact ih (acc * 2 + c) p b nx h

/-- **C3**: Big-endian composition starts from the accumulator 0 and
applies `value_{i+1} = value_i * 2 + bit_i` left to right, each step
constrained by one `next = prev * 2 + bit` gate; the bits `[1,0,1,0]`
compose to 10 in big-endian mode and to 5 in little-endian mode. -/
theorem c3_big_endian_composition :
    (∀ bits : List F,
      accAt bits 0 = 0 ∧
      (∀ k, k < bits.length → accAt bits (k + 1) = accAt bits k * 2 + bits.getD k 0) ∧
      convert_be_val bits = accAt bits bits.length ∧
      (convert_be_trace bits).countP isComposeGate = bits.length ∧
      (∀ k, k < bits.length →
        (convert_be_trace bits).getD (2 * k + 1) .assignConstZero =
          .composeGate (accAt bits k) (bits.getD k 0) (accAt bits (k + 1))) ∧
      (∀ p b nx, Event.composeGate p b nx ∈ convert_be_trace bits → nx = p * 2 + b)) ∧
    convert_be_val [1, 0, 1, 0] = 10 ∧ convert_le_val [1, 0, 1, 0] = 5 := by
  refine ⟨fun bits => ⟨rfl, ?_, ?_, ?_, ?_, ?_⟩, by decide, by decide⟩
  · intro k hk
    exact foldl_take_succ bits k 0 hk
  · simp [accAt, convert_be_val, List.take_length]
  · simp only [convert_be_trace, List.countP_cons]
    rw [b2nSteps_countP_gates]
    simp [isComposeGate]
  · intro k hk
    have hidx : 2 * k + 1 = (2 * k) + 1 := rfl
    simp only [convert_be_trace, hidx, List.getD_cons_succ]
    rw [b2nSteps_getD_gate bits 0 k _ hk]
    have hacc : accAt bits (k + 1) = accAt bits k * 2 + bits.getD k 0 :=
      foldl_take_succ bits k 0 hk
    rw [hacc]
    rfl
  · intro p b nx h
    simp only [convert_be_trace, List.mem_cons] at h
    rcases h with h | h
    · exact Event.noConfusion h
    · exact b2nSteps_gate_rel bits 0 p b nx h

/-- Witness for C3: at the concrete input `[1,0,1,0]`, the second gate
(step `k = 1`) is `next = prev * 2 + bit` with `prev = 1`, `bit = 0`. -/
theorem c3_witness :
    (1 : ℕ) < ([1, 0, 1, 0] : List F).length ∧
    (convert_be_trace [1, 0, 1, 0]).getD 3 .assignConstZero =
      .composeGate (accAt [1, 0, 1, 0] 1) (([1, 0, 1, 0] : List F).getD 1 0)
        (accAt [1, 0, 1, 0] 2) :=
  ⟨by decide, (c3_big_endian_composition.1 [1, 0, 1, 0]).2.2.2.2.1 1 (by decide)⟩

/-- **C8**: `convert_be` (and `convert_le`) succeeds exactly when the bit
sequence has length `num_bit_size` and `num_bit_size` does not exceed the
field capacity; otherwise it fails eagerly as a construction-time
assertion (an `Except.error`, never a deferred constraint violation). -/
theorem c8_compose_configuration_errors :
    ∀ (num_bit_size : ℕ) (bits : List F),
      (convert_be_checked num_bit_size bits).isOk =
        (decide (bits.length = num_bit_size) && decide (num_bit_size ≤ CAPACITY)) ∧
      (convert_le_checked num_bit_size bits).isOk =
        (decide (bits.length = num_bit_size) && decide (num_bit_size ≤ CAPACITY)) ∧
      (convert_be_checked num_bit_size bits = .ok (convert_be_val bits) ∨
        ∃ msg, convert_be_checked num_bit_size bits = .error msg) := by
  intro n bits
  refine ⟨?_, ?_, ?_⟩
  · unfold convert_be_checked
    by_cases h1 : bits.length = n <;> by_cases h2 : CAPACITY < n <;>
      simp [h1, h2, Except.isOk, Except.toBool] <;> omega
  · unfold convert_le_checked convert_be_checked
    rw [List.length_reverse]
    by_cases h1 : bits.length = n <;> by_cases h2 : CAPACITY < n <;>
      simp [h1, h2, Except.isOk, Except.toBool] <;> omega
  · unfold convert_be_checked
    by_cases h1 : bits.length = n <;> by_cases h2 : CAPACITY < n <;> simp [h1, h2]

/-! ## Threshold quantization (claim C5) -/

/-- **C5**: a stored threshold quantizes to
`clamp(ceil(255 * storedValue), 0, 256)`, always lands in `[0, 256]`,
and in particular `0.0 → 0` and `1.0 → 255`. -/
theorem c5_threshold_quantization :
    (∀ x : ℚ, (quantize_threshold x : ℤ) = min 256 (max 0 ⌈255 * x⌉)) ∧
    quantize_threshold 0 = 0 ∧
    quantize_threshold 1 = 255 ∧
    (∀ x : ℚ, quantize_threshold x ≤ 256) := by
  refine ⟨?_, ?_, ?_, ?_⟩
  · intro x
    unfold quantize_threshold
    have hnn : (0 : ℤ) ≤ min (max ⌈x * 255⌉ 0) 256 :=
      le_min (le_max_right _ _) (by norm_num)
    rw [Int.toNat_of_nonneg hnn, mul_comm x 255, min_comm, max_comm]
  · unfold quantize_threshold
    norm_num
  · unfold quantize_threshold
    have hc : ⌈(1 : ℚ) * 255⌉ = 255 := by
      rw [one_mul]
      norm_num
    rw [hc]
    rfl
  · intro x
    unfold quantize_threshold
    rw [Int.toNat_le]
    exact min_le_right _ _

/-! ## `integer_division` (claim C10) -/

/-- **C10**: for a nonzero divisor, `integer_division` returns the field
element of `floor(val(x) / d)` whenever that quotient fits in a `u64`; on
the concrete input `x = -1`, `d = 2` in the bn256 scalar field, the
quotient exceeds `2^64 - 1` and the `u64` conversion panics (`none`). -/
theorem c10_integer_division :
    (∀ (x : F) (d : ℕ), d ≠ 0 → x.val / d < 2 ^ 64 →
      integer_division x d = some ((x.val / d : ℕ) : F)) ∧
    integer_division (-1 : F) 2 = none := by
  constructor
  · intro x d _ hq
    unfold integer_division
    rw [if_pos hq]
  · decide

/-- Witness for C10: `6 / 2 = 3` in the field (the repository's own unit
test value), with both hypotheses discharged concretely. -/
theorem c10_witness :
    ((2 : ℕ) ≠ 0 ∧ (6 : F).val / 2 < 2 ^ 64) ∧
    integer_division (6 : F) 2 = some (((6 : F).val / 2 : ℕ) : F) :=
  ⟨⟨by decide, by decide⟩, c10_integer_division.1 6 2 (by decide) (by decide)⟩

theorem natBe_append_bit (l : List Bool) (b : Bool) :
    natBe (l ++ [b]) = natBe l * 2 + b.toNat := by
  unfold natBe
  rw [List.foldl_append]
  rfl

theorem natLe_cons (b : Bool) (t : List Bool) :
    natLe (b :: t) = natLe t * 2 + b.toNat := by
  unfold natLe
  rw [List.reverse_cons, natBe_append_bit]

theorem natLe_lt (s : List Bool) : natLe s < 2 ^ s.length := by
  induction s with
  | nil => simp [natLe, natBe]
  | cons b t ih =>
    rw [natLe_cons, List.length_cons, pow_succ]
    cases b <;> simp only [Bool.toNat_true, Bool.toNat_false] <;> omega

theorem natLe_testBit (s : List Bool) : ∀ k, (natLe s).testBit k = s.getD k false := by
  induction s with
  | nil =>
    intro k
    simp [natLe, natBe, Nat.zero_testBit]
  | cons b t ih =>
    intro k
    cases k with
    | zero =>
      rw [natLe_cons, List.getD_cons_zero]
      cases b <;> simp [Nat.testBit_zero] <;> omega
    | succ k =>
      rw [natLe_cons, List.getD_cons_succ, Nat.testBit_succ]
      have hdiv : (natLe t * 2 + b.toNat) / 2 = natLe t := by
        cases b <;> simp <;> omega
      rw [hdiv]
      exact ih k

theorem foldl_toFBit_cast (s : List Bool) :
    ∀ a : ℕ,
      List.foldl (fun acc b => acc * 2 + b) ((a : ℕ) : F) (s.map toFBit) =
        ((s.foldl (fun acc b => acc * 2 + b.toNat) a : ℕ) : F) := by
  induction s with
  | nil => intro a; simp
  | cons b t ih =>
    intro a
    simp only [List.map_cons, List.foldl_cons]
    have hb : ((a : ℕ) : F) * 2 + toFBit b = ((a * 2 + b.toNat : ℕ) : F) := by
      cases b <;> simp [toFBit] <;> push_cast <;> ring
    rw [hb, ih]

theorem convert_be_val_cast (s : List Bool) :
    convert_be_val (s.map toFBit) = ((natBe s : ℕ) : F) := by
  unfold convert_be_val natBe
  have h0 : (0 : F) = ((0 : ℕ) : F) := by norm_cast
  rw [h0, foldl_toFBit_cast]

theorem convert_le_val_cast (s : List Bool) :
    convert_le_val (s.map toFBit) = ((natLe s : ℕ) : F) := by
  unfold convert_le_val natLe
  rw [← List.map_reverse, convert_be_val_cast]

theorem pow253_lt_frP : 2 ^ 253 < frP := by norm_num [frP]

theorem convert_le_val_val (s : List Bool) (h : s.length ≤ CAPACITY) :
    (convert_le_val (s.map toFBit)).val = natLe s := by
  rw [convert_le_val_cast]
  apply ZMod.val_cast_of_lt
  calc natLe s < 2 ^ s.length := natLe_lt s
    _ ≤ 2 ^ 253 := Nat.pow_le_pow_right (by norm_num) (by simpa [CAPACITY] using h)
    _ < frP := pow253_lt_frP

theorem chunksExact_one (l : List α) : chunksExact 1 l = l.map (fun a => [a]) := by
  induction l with
  | nil =>
    rw [chunksExact_eq]
    simp
  | cons a t ih =>
    rw [chunksExact_eq]
    rw [if_pos ⟨by omega, by simp⟩]
    simp only [List.take_cons_succ, List.take_zero, List.drop_succ_cons, List.drop_zero,
      List.map_cons]
    rw [ih]

/-- **C4**: for every boolean sequence of length at most the field
capacity, decomposing the little-endian composition into one-bit windows
recovers the sequence, and big-endian composition agrees with
little-endian composition of the reversed sequence. -/
theorem c4_compose_decompose_roundtrip :
    ∀ s : List Bool, s.length ≤ CAPACITY →
      decompose_word (convert_le_val (s.map toFBit)) s.length 1 = s.map toFBit ∧
      convert_be_val (s.map toFBit) = convert_le_val (s.reverse.map toFBit) := by
  intro s hs
  constructor
  · unfold decompose_word
    have hbits : (to_le_bits (convert_le_val (s.map toFBit))).take (s.length * 1) = s := by
      unfold to_le_bits
      rw [convert_le_val_val s hs, Nat.mul_one, ← List.map_take, List.take_range]
      have hmin : min s.length REPR_BITS = s.length := by
        rw [min_eq_left]
        unfold REPR_BITS
        unfold CAPACITY at hs
        omega
      rw [hmin]
      have hcongr :
          (List.range s.length).map (fun k => (natLe s).testBit k) =
            (List.range s.length).map (fun k => s.getD k false) := by
        apply List.map_congr_left
        intro k _
        exact natLe_testBit s k
      rw [hcongr, map_getD_range_self]
    rw [hbits, chunksExact_one, List.map_map]
    apply List.map_congr_left
    intro b _
    simp only [Function.comp_apply, List.reverse_cons, List.reverse_nil, List.nil_append,
      List.foldl_cons, List.foldl_nil]
    rw [zero_mul, zero_add]
  · unfold convert_le_val
    rw [← List.map_reverse, List.reverse_reverse]

/-- Witness for C4: the concrete sequence `[true, false, true]`. -/
theorem c4_witness :
    ([true, false, true] : List Bool).length ≤ CAPACITY ∧
    decompose_word (convert_le_val ([true, false, true].map toFBit)) 3 1 =
      [true, false, true].map toFBit ∧
    convert_be_val ([true, false, true].map toFBit) =
      convert_le_val ([true, false, true].reverse.map toFBit) :=
  ⟨by decide,
   (c4_compose_decompose_roundtrip [true, false, true] (by decide)).1,
   (c4_compose_decompose_roundtrip [true, false, true] (by decide)).2⟩

/-! ## Closed forms for the binarization loop (claims C2, C6, C9) -/

theorem binStep_bits (th : ℕ → ℕ → ℕ → ℕ) (im : ℕ → ℕ → ℕ) (s : BinState) (b i j : ℕ) :
    (binStep th im s (b, i, j)).bits = s.bits ++ [bitVal th im b i j] := by
  simp only [binStep, bitVal]
  split_ifs <;> rfl

theorem binStep_events (th : ℕ → ℕ → ℕ → ℕ) (im : ℕ → ℕ → ℕ) (s : BinState) (b i j : ℕ) :
    (binStep th im s (b, i, j)).events =
      s.events ++ [eventGiven th im (decide ((i, j) ∈ s.cache)) b i j] := by
  simp only [binStep, eventGiven]
  by_cases h1 : th i j b = 0
  · simp [h1]
  · by_cases h2 : (i, j) ∈ s.cache
    · simp [h1, h2]
    · simp [h1, h2]

theorem binStep_cache_mem (th : ℕ → ℕ → ℕ → ℕ) (im : ℕ → ℕ → ℕ) (s : BinState)
    (b i j : ℕ) (p : ℕ × ℕ) :
    p ∈ (binStep th im s (b, i, j)).cache ↔
      p ∈ s.cache ∨ (p = (i, j) ∧ th i j b ≠ 0) := by
  simp only [binStep]
  split_ifs with h1 h2 <;> dsimp only
  · simp [h1]
  · constructor
    · exact Or.inl
    · rintro (h | ⟨rfl, _⟩)
      · exact h
      · exact h2
  · simp only [List.mem_append, List.mem_singleton]
    constructor
    · rintro (h | h)
      · exact Or.inl h
      · exact Or.inr ⟨h, h1⟩
    · rintro (h | ⟨h, _⟩)
      · exact Or.inl h
      · exact Or.inr h

theorem foldl_binStep_bits (th : ℕ → ℕ → ℕ → ℕ) (im : ℕ → ℕ → ℕ) :
    ∀ (L : List (ℕ × ℕ × ℕ)) (s : BinState),
      (L.foldl (binStep th im) s).bits =
        s.bits ++ L.map (fun t => bitVal th im t.1 t.2.1 t.2.2) := by
  intro L
  induction L with
  | nil => intro s; simp
  | cons t T ih =>
    intro s
    rcases t with ⟨b, i, j⟩
    rw [List.foldl_cons, ih, binStep_bits, List.map_cons, List.append_assoc,
      List.singleton_append]

theorem foldl_binStep_cache_mem (th : ℕ → ℕ → ℕ → ℕ) (im : ℕ → ℕ → ℕ) :
    ∀ (L : List (ℕ × ℕ × ℕ)) (s : BinState) (p : ℕ × ℕ),
      p ∈ (L.foldl (binStep th im) s).cache ↔
        p ∈ s.cache ∨ ∃ t ∈ L, p = (t.2.1, t.2.2) ∧ th t.2.1 t.2.2 t.1 ≠ 0 := by
  intro L
  induction L with
  | nil => intro s p; simp
  | cons t T ih =>
    intro s p
    rcases t with ⟨b, i, j⟩
    rw [List.foldl_cons, ih, binStep_cache_mem]
    simp only [List.mem_cons]
    constructor
    · rintro ((h | ⟨rfl, hne⟩) | ⟨t', ht', h⟩)
      · exact Or.inl h
      · exact Or.inr ⟨(b, i, j), Or.inl rfl, rfl, hne⟩
      · exact Or.inr ⟨t', Or.inr ht', h⟩
    · rintro (h | ⟨t', (rfl | ht'), h⟩)
      · exact Or.inl (Or.inl h)
      · exact Or.inl (Or.inr h)
      · exact Or.inr ⟨t', ht', h⟩

theorem foldl_binStep_events (th : ℕ → ℕ → ℕ → ℕ) (im : ℕ → ℕ → ℕ) :
    ∀ (L : List (ℕ × ℕ × ℕ)) (s : BinState),
      L.Pairwise (fun a c => (a.2.1, a.2.2) ≠ (c.2.1, c.2.2)) →
      (L.foldl (binStep th im) s).events =
        s.events ++ L.map (fun t =>
          eventGiven th im (decide ((t.2.1, t.2.2) ∈ s.cache)) t.1 t.2.1 t.2.2) := by
  intro L
  induction L with
  | nil => intro s _; simp
  | cons t T ih =>
    intro s hpw
    rcases List.pairwise_cons.mp hpw with ⟨hhead, htail⟩
    rcases t with ⟨b, i, j⟩
    rw [List.foldl_cons, ih _ htail, binStep_events, List.append_assoc,
      List.singleton_append, List.map_cons]
    congr 2
    apply List.map_congr_left
    intro t' ht'
    have hne : (i, j) ≠ (t'.2.1, t'.2.2) := hhead t' ht'
    have hiff : (t'.2.1, t'.2.2) ∈ (binStep th im s (b, i, j)).cache ↔
        (t'.2.1, t'.2.2) ∈ s.cache := by
      rw [binStep_cache_mem]
      constructor
      · rintro (h | ⟨heq, _⟩)
        · exact h
        · exact absurd heq.symm hne
      · exact Or.inl
    rw [decide_eq_decide.mpr hiff]

theorem rowList_length (i H : ℕ) : (rowList i H).length = H := by
  simp [rowList]

theorem pixList_length (W H : ℕ) : (pixList W H).length = W * H := by
  unfold pixList
  rw [length_flatMap_const _ _ H (fun i _ => rowList_length i H), List.length_range]

theorem mem_pixList (W H : ℕ) (p : ℕ × ℕ) : p ∈ pixList W H ↔ p.1 < W ∧ p.2 < H := by
  simp only [pixList, rowList, List.mem_flatMap, List.mem_map, List.mem_range]
  constructor
  · rintro ⟨i, hi, j, hj, rfl⟩
    exact ⟨hi, hj⟩
  · rintro ⟨h1, h2⟩
    exact ⟨p.1, h1, p.2, h2, rfl⟩

theorem pixList_nodup (W H : ℕ) : (pixList W H).Nodup := by
  unfold pixList
  rw [List.nodup_flatMap]
  constructor
  · intro i _
    unfold rowList
    apply List.Nodup.map ?inj (List.nodup_range H)
    intro a b hab
    injection hab
  · apply List.Pairwise.imp ?imp (List.nodup_range W)
    intro a b hab
    intro x hxa hxb
    simp only [rowList, List.mem_map] at hxa hxb
    rcases hxa with ⟨ja, _, rfl⟩
    rcases hxb with ⟨jb, _, hEq⟩
    injection hEq with e1 _
    exact hab e1.symm

theorem plane_pairwise (W H b : ℕ) :
    ((pixList W H).map (fun p => (b, p.1, p.2))).Pairwise
      (fun a c => (a.2.1, a.2.2) ≠ (c.2.1, c.2.2)) := by
  rw [List.pairwise_map]
  apply List.Pairwise.imp ?imp (pixList_nodup W H)
  intro p q hpq hEq
  apply hpq
  injection hEq with e1 e2
  rcases p with ⟨p1, p2⟩
  rcases q with ⟨q1, q2⟩
  simp only at e1 e2
  rw [e1, e2]

theorem idxList_succ (B W H : ℕ) :
    idxList (B + 1) W H =
      idxList B W H ++ (pixList W H).map (fun p => (B, p.1, p.2)) := by
  unfold idxList
  rw [List.range_succ, List.flatMap_append]
  simp [List.flatMap_cons]

theorem mem_idxList (B W H : ℕ) (t : ℕ × ℕ × ℕ) :
    t ∈ idxList B W H ↔ t.1 < B ∧ t.2.1 < W ∧ t.2.2 < H := by
  simp only [idxList, List.mem_flatMap, List.mem_range, List.mem_map]
  constructor
  · rintro ⟨b, hb, p, hp, rfl⟩
    rcases (mem_pixList W H p).mp hp with ⟨h1, h2⟩
    exact ⟨hb, h1, h2⟩
  · rintro ⟨h1, h2, h3⟩
    exact ⟨t.1, h1, (t.2.1, t.2.2), (mem_pixList W H _).mpr ⟨h2, h3⟩, rfl⟩

theorem idxList_length (B W H : ℕ) : (idxList B W H).length = B * (W * H) := by
  unfold idxList
  rw [length_flatMap_const _ _ (W * H)
    (fun b _ => by rw [List.length_map, pixList_length]), List.length_range]

theorem seenBefore_iff (th : ℕ → ℕ → ℕ → ℕ) (b i j : ℕ) :
    seenBefore th b i j = true ↔ ∃ k, k < b ∧ th i j k ≠ 0 := by
  simp [seenBefore, List.any_eq_true, List.mem_range]

theorem binarize_bits_closed (th : ℕ → ℕ → ℕ → ℕ) (im : ℕ → ℕ → ℕ) (B W H : ℕ) :
    (binarize th im B W H).bits =
      (idxList B W H).map (fun t => bitVal th im t.1 t.2.1 t.2.2) := by
  unfold binarize
  rw [foldl_binStep_bits]
  rfl

theorem binarize_cache_mem (th : ℕ → ℕ → ℕ → ℕ) (im : ℕ → ℕ → ℕ) (B W H i j : ℕ)
    (hi : i < W) (hj : j < H) :
    (i, j) ∈ (binarize th im B W H).cache ↔ ∃ b', b' < B ∧ th i j b' ≠ 0 := by
  unfold binarize
  rw [foldl_binStep_cache_mem]
  simp only [List.not_mem_nil, false_or]
  constructor
  · rintro ⟨t, ht, heq, hne⟩
    rcases (mem_idxList B W H t).mp ht with ⟨h1, _, _⟩
    injection heq with e1 e2
    refine ⟨t.1, h1, ?_⟩
    rw [e1, e2]
    exact hne
  · rintro ⟨b', hb', hne⟩
    exact ⟨(b', i, j), (mem_idxList B W H _).mpr ⟨hb', hi, hj⟩, rfl, hne⟩

theorem binarize_events_closed (th : ℕ → ℕ → ℕ → ℕ) (im : ℕ → ℕ → ℕ) (W H : ℕ) :
    ∀ B, (binarize th im B W H).events =
      (idxList B W H).map (fun t => eventVal th im t.1 t.2.1 t.2.2) := by
  intro B
  induction B with
  | zero => simp [binarize, idxList]
  | succ B ih =>
    have hfold : (idxList B W H).foldl (binStep th im) ⟨[], [], []⟩ =
        binarize th im B W H := rfl
    show ((idxList (B + 1) W H).foldl (binStep th im) ⟨[], [], []⟩).events = _
    rw [idxList_succ, List.foldl_append, hfold,
      foldl_binStep_events th im _ _ (plane_pairwise W H B), ih, List.map_append]
    congr 1
    rw [List.map_map, List.map_map]
    apply List.map_congr_left
    intro p hp
    rcases (mem_pixList W H p).mp hp with ⟨h1, h2⟩
    simp only [Function.comp_apply]
    unfold eventVal
    have hseen : decide ((p.1, p.2) ∈ (binarize th im B W H).cache) =
        seenBefore th B p.1 p.2 := by
      apply bool_eq_of_iff
      rw [decide_eq_true_eq, binarize_cache_mem th im B W H p.1 p.2 h1 h2,
        seenBefore_iff]
    rw [hseen]

theorem pix_index_lt (i j W H : ℕ) (hi : i < W) (hj : j < H) : i * H + j < W * H := by
  calc i * H + j < i * H + H := by omega
    _ = (i + 1) * H := by ring
    _ ≤ W * H := Nat.mul_le_mul_right H hi

theorem pixList_getD (W H i j : ℕ) (hi : i < W) (hj : j < H) :
    (pixList W H).getD (i * H + j) (0, 0) = (i, j) := by
  unfold pixList
  rw [getD_range_flatMap W (fun x => rowList x H) H i j _
    (fun x => rowList_length x H) hi hj]
  unfold rowList
  rw [getD_map_lt _ _ j _ 0 (by simpa using hj), getD_range H j 0 hj]

theorem idxList_map_getD (g : ℕ → ℕ → ℕ → β) (B W H b i j : ℕ) (d : β)
    (hb : b < B) (hi : i < W) (hj : j < H) :
    ((idxList B W H).map (fun t => g t.1 t.2.1 t.2.2)).getD
      (b * (W * H) + (i * H + j)) d = g b i j := by
  unfold idxList
  rw [List.map_flatMap]
  have hmm : (fun b' => List.map (fun t : ℕ × ℕ × ℕ => g t.1 t.2.1 t.2.2)
      ((pixList W H).map (fun p => (b', p.1, p.2)))) =
      fun b' => (pixList W H).map (fun p => g b' p.1 p.2) := by
    funext b'
    rw [List.map_map]
    rfl
  rw [hmm, getD_range_flatMap B _ (W * H) b (i * H + j) d
    (fun x => by rw [List.length_map, pixList_length]) hb (pix_index_lt i j W H hi hj),
    getD_map_lt _ _ (i * H + j) d (0, 0)
      (by rw [pixList_length]; exact pix_index_lt i j W H hi hj),
    pixList_getD W H i j hi hj]

theorem binarize_bits_getD (th : ℕ → ℕ → ℕ → ℕ) (im : ℕ → ℕ → ℕ) (B W H b i j : ℕ)
    (hb : b < B) (hi : i < W) (hj : j < H) :
    (binarize th im B W H).bits.getD (b * (W * H) + (i * H + j)) false =
      bitVal th im b i j := by
  rw [binarize_bits_closed]
  exact idxList_map_getD (fun b i j => bitVal th im b i j) B W H b i j false hb hi hj

theorem binarize_events_getD (th : ℕ → ℕ → ℕ → ℕ) (im : ℕ → ℕ → ℕ) (B W H b i j : ℕ)
    (hb : b < B) (hi : i < W) (hj : j < H) :
    (binarize th im B W H).events.getD (b * (W * H) + (i * H + j)) .assignConstZero =
      eventVal th im b i j := by
  rw [binarize_events_closed]
  exact idxList_map_getD (fun b i j => eventVal th im b i j) B W H b i j _ hb hi hj

/-- **C2**: for every pixel `(i, j)` and bit-plane `b`, a zero threshold
makes the emitted bit the constant 1 regardless of the pixel intensity
(the emitted constraint is a constant assignment, with no comparator
invocation), and otherwise the emitted bit is the greater-than comparison
of `image[i, j]` against `threshold[i, j, b] - 1`. -/
theorem c2_binarization_bits (th : ℕ → ℕ → ℕ → ℕ) (im : ℕ → ℕ → ℕ) (B W H b i j : ℕ)
    (hb : b < B) (hi : i < W) (hj : j < H) :
    ((binarize th im B W H).bits.getD (b * (W * H) + (i * H + j)) false =
      if th i j b = 0 then true else decide (th i j b - 1 < im i j)) ∧
    (th i j b = 0 →
      (binarize th im B W H).events.getD (b * (W * H) + (i * H + j)) .assignConstZero =
        .constOne i j) ∧
    (th i j b ≠ 0 →
      (binarize th im B W H).bits.getD (b * (W * H) + (i * H + j)) false =
        greater_than_val (im i j) (th i j b - 1)) := by
  refine ⟨?_, ?_, ?_⟩
  · rw [binarize_bits_getD th im B W H b i j hb hi hj]
    unfold bitVal greater_than_val
    rfl
  · intro h0
    rw [binarize_events_getD th im B W H b i j hb hi hj]
    unfold eventVal eventGiven
    rw [if_pos h0]
  · intro hne
    rw [binarize_bits_getD th im B W H b i j hb hi hj]
    unfold bitVal
    rw [if_neg hne]

/-- Witness for C2: a 1×1 image with intensity 0 and two bit-planes, one
with threshold 0 (bit is 1, constant-assignment event) and one with
threshold 1 (bit is the comparison `0 > 0 = false`). -/
theorem c2_witness :
    ((0 : ℕ) < 2 ∧ (0 : ℕ) < 1 ∧ (0 : ℕ) < 1) ∧
    ((binarize (fun _ _ b => if b = 0 then 0 else 1) (fun _ _ => 0) 2 1 1).bits.getD
        (0 * (1 * 1) + (0 * 1 + 0)) false =
      if (if (0 : ℕ) = 0 then 0 else 1) = 0 then true
      else decide ((if (0 : ℕ) = 0 then 0 else 1) - 1 < 0)) ∧
    ((if (0 : ℕ) = 0 then 0 else 1) = 0 →
      (binarize (fun _ _ b => if b = 0 then 0 else 1) (fun _ _ => 0) 2 1 1).events.getD
          (0 * (1 * 1) + (0 * 1 + 0)) .assignConstZero = .constOne 0 0) :=
  ⟨⟨by decide, by decide, by decide⟩,
   (c2_binarization_bits (fun _ _ b => if b = 0 then 0 else 1) (fun _ _ => 0)
      2 1 1 0 0 0 (by decide) (by decide) (by decide)).1,
   (c2_binarization_bits (fun _ _ b => if b = 0 then 0 else 1) (fun _ _ => 0)
      2 1 1 0 0 0 (by decide) (by decide) (by decide)).2.1⟩

theorem countP_eq_one_decide [DecidableEq α] (X : α) :
    ∀ (l : List α), l.Nodup → X ∈ l →
      l.countP (fun q => decide (q = X)) = 1 := by
  intro l
  induction l with
  | nil => intro _ hm; simp at hm
  | cons a t ih =>
    intro hn hm
    rw [List.countP_cons]
    rcases List.mem_cons.mp hm with rfl | hm'
    · have hnot : X ∉ t := (List.nodup_cons.mp hn).1
      have hz : t.countP (fun q => decide (q = X)) = 0 := by
        rw [List.countP_eq_zero]
        intro q hq
        simp only [decide_eq_true_eq]
        rintro rfl
        exact hnot hq
      simp [hz]
    · have hne : a ≠ X := by
        rintro rfl
        exact (List.nodup_cons.mp hn).1 hm'
      rw [ih (List.nodup_cons.mp hn).2 hm']
      simp [hne]

theorem binarize_countP (th : ℕ → ℕ → ℕ → ℕ) (im : ℕ → ℕ → ℕ) (B W H : ℕ)
    (p : Event → Bool) :
    (binarize th im B W H).events.countP p =
      ((List.range B).map (fun b =>
        (pixList W H).countP (fun q => p (eventVal th im b q.1 q.2)))).sum := by
  rw [binarize_events_closed]
  unfold idxList
  rw [List.map_flatMap]
  have hmm : (fun b' => List.map (fun t : ℕ × ℕ × ℕ => eventVal th im t.1 t.2.1 t.2.2)
      ((pixList W H).map (fun q => (b', q.1, q.2)))) =
      fun b' => (pixList W H).map (fun q => eventVal th im b' q.1 q.2) := by
    funext b'
    rw [List.map_map]
    rfl
  rw [hmm, List.countP_flatMap]
  congr 1
  apply List.map_congr_left
  intro b _
  simp only [Function.comp_apply]
  rw [List.countP_map]
  rfl

theorem isIntensityWitnessFor_eventVal (th : ℕ → ℕ → ℕ → ℕ) (im : ℕ → ℕ → ℕ)
    (i j b : ℕ) (q : ℕ × ℕ) :
    isIntensityWitnessFor i j (eventVal th im b q.1 q.2) =
      (decide (q = (i, j)) && decide (th q.1 q.2 b ≠ 0) &&
        !(seenBefore th b q.1 q.2)) := by
  rcases q with ⟨q1, q2⟩
  simp only
  unfold eventVal eventGiven
  by_cases h1 : th q1 q2 b = 0
  · rw [if_pos h1]
    simp [isIntensityWitnessFor, h1]
  · rw [if_neg h1]
    cases hs : seenBefore th b q1 q2
    · simp only [Bool.false_eq_true, if_false, Bool.not_false, Bool.and_true]
      simp [isIntensityWitnessFor, h1, Prod.ext_iff, and_comm]
    · simp [isIntensityWitnessFor, h1]

/-- **C9**: for a pixel `(i, j)` whose first nonzero threshold sits at
bit-plane `b0`, the full binarization emits exactly one fresh
intensity-witness allocation for that pixel; it happens at `(b0, i, j)`,
and every later nonzero-threshold comparison of the pixel goes through
the cached-cell copy path (`gtCopy`, an equality constraint) instead of
allocating a new witness. -/
theorem c9_intensity_witness_reuse (th : ℕ → ℕ → ℕ → ℕ) (im : ℕ → ℕ → ℕ)
    (B W H i j b0 : ℕ) (hi : i < W) (hj : j < H) (hb0 : b0 < B)
    (hnz : th i j b0 ≠ 0) (hfirst : ∀ b', b' < b0 → th i j b' = 0) :
    (binarize th im B W H).events.countP (isIntensityWitnessFor i j) = 1 ∧
    (binarize th im B W H).events.getD (b0 * (W * H) + (i * H + j)) .assignConstZero =
      .gtWitness i j (im i j) (th i j b0 - 1) ∧
    (∀ b, b < B → th i j b ≠ 0 → b ≠ b0 →
      (binarize th im B W H).events.getD (b * (W * H) + (i * H + j)) .assignConstZero =
        .gtCopy i j (im i j) (th i j b - 1)) := by
  have hseen0 : seenBefore th b0 i j = false := by
    rw [Bool.eq_false_iff]
    intro hc
    rcases (seenBefore_iff th b0 i j).mp hc with ⟨k, hk, hkne⟩
    exact hkne (hfirst k hk)
  have hEvb0 : eventVal th im b0 i j = .gtWitness i j (im i j) (th i j b0 - 1) := by
    unfold eventVal eventGiven
    rw [if_neg hnz, hseen0]
    simp
  have hEvCopy : ∀ b, b < B → th i j b ≠ 0 → b ≠ b0 →
      eventVal th im b i j = .gtCopy i j (im i j) (th i j b - 1) := by
    intro b _ hne hne0
    have hgt : b0 < b := by
      rcases Nat.lt_or_ge b b0 with h | h
      · exact absurd (hfirst b h) hne
      · omega
    have hseen : seenBefore th b i j = true := (seenBefore_iff th b i j).mpr ⟨b0, hgt, hnz⟩
    unfold eventVal eventGiven
    rw [if_neg hne, hseen]
    simp
  refine ⟨?_, ?_, ?_⟩
  · rw [binarize_countP th im B W H (isIntensityWitnessFor i j)]
    have hper : ∀ b ∈ List.range B,
        (pixList W H).countP (fun q => isIntensityWitnessFor i j (eventVal th im b q.1 q.2)) =
          if b = b0 then 1 else 0 := by
      intro b hb
      rw [List.mem_range] at hb
      have hcongr : ∀ q ∈ pixList W H,
          (isIntensityWitnessFor i j (eventVal th im b q.1 q.2) = true) ↔
            ((decide (q = (i, j)) && decide (th q.1 q.2 b ≠ 0) &&
              !(seenBefore th b q.1 q.2)) = true) := by
        intro q _
        rw [isIntensityWitnessFor_eventVal]
      rw [List.countP_congr hcongr]
      by_cases hcase : b = b0
      · subst hcase
        rw [if_pos rfl]
        have hcongr2 : ∀ q ∈ pixList W H,
            ((decide (q = (i, j)) && decide (th q.1 q.2 b ≠ 0) &&
              !(seenBefore th b q.1 q.2)) = true) ↔ (decide (q = (i, j)) = true) := by
          intro q _
          by_cases hq : q = (i, j)
          · subst hq
            simp [hnz, hseen0]
          · simp [hq]
        rw [List.countP_congr hcongr2]
        exact countP_eq_one_decide (i, j) (pixList W H) (pixList_nodup W H)
          ((mem_pixList W H (i, j)).mpr ⟨hi, hj⟩)
      · rw [if_neg hcase]
        rw [List.countP_eq_zero]
        intro q _
        by_cases hq : q = (i, j)
        · subst hq
          by_cases hth : th i j b = 0
          · simp [hth]
          · have hgt : b0 < b := by
              rcases Nat.lt_or_ge b b0 with h | h
              · exact absurd (hfirst b h) hth
              · omega
            have hseen : seenBefore th b i j = true :=
              (seenBefore_iff th b i j).mpr ⟨b0, hgt, hnz⟩
            simp [hseen]
        · simp [hq]
    rw [List.map_congr_left hper, sum_range_indicator, if_pos hb0]
  · rw [binarize_events_getD th im B W H b0 i j hb0 hi hj, hEvb0]
  · intro b hb hth hne
    rw [binarize_events_getD th im B W H b i j hb hi hj, hEvCopy b hb hth hne]

/-- Witness for C9: two bit-planes over a 1×1 image; the plane-0
threshold is 0, the plane-1 threshold is 1, so the single intensity
witness is created at plane 1. -/
theorem c9_witness :
    ((0 : ℕ) < 1 ∧ (0 : ℕ) < 1 ∧ (1 : ℕ) < 2 ∧
      (fun (_ _ b : ℕ) => if b = 0 then 0 else 1) 0 0 1 ≠ 0 ∧
      (∀ b', b' < 1 → (fun (_ _ b : ℕ) => if b = 0 then 0 else 1) 0 0 b' = 0)) ∧
    (binarize (fun _ _ b => if b = 0 then 0 else 1) (fun _ _ => 5) 2 1 1).events.countP
      (isIntensityWitnessFor 0 0) = 1 :=
  ⟨⟨by decide, by decide, by decide, by decide, by decide⟩,
   (c9_intensity_witness_reuse (fun _ _ b => if b = 0 then 0 else 1) (fun _ _ => 5)
      2 1 1 0 0 1 (by decide) (by decide) (by decide) (by decide) (by decide)).1⟩

/-! ## Permutation as a pure relabeling (claim C6) -/

/-- **C6**: the `k`-th permuted bit witness is identically the
binarized-bit witness at index `input_permutation[k]`, and the predict
trace passes directly from the binarization events to the composition
events — the permutation step emits no constraint of any kind. -/
theorem c6_permutation_pure_relabeling (m : WnnChipModel) (W H : ℕ)
    (img : ℕ → ℕ → ℕ) (k : ℕ) (hk : k < m.input_permutation.length) :
    (permuted_inputs m W H img).getD k false =
      (predict_bits m W H img).getD (m.input_permutation.getD k 0) false ∧
    predict_trace m W H img =
      (binarize m.binarization_thresholds img m.bits_per_input W H).events ++
        (chunksExact m.n_bits (permuted_inputs m W H img)).flatMap
          (fun chunk => convert_be_trace (chunk.map toFBit).reverse) := by
  constructor
  · unfold permuted_inputs
    exact getD_map_lt _ _ k false 0 hk
  · rfl

/-- Witness for C6: position `k = 1` of the example permutation. -/
theorem c6_witness :
    ((1 : ℕ) < exModel.input_permutation.length) ∧
    (permuted_inputs exModel 1 2 exImg0).getD 1 false =
      (predict_bits exModel 1 2 exImg0).getD (exModel.input_permutation.getD 1 0) false :=
  ⟨by decide, (c6_permutation_pure_relabeling exModel 1 2 exImg0 1 (by decide)).1⟩

/-! ## `predict` construction-time checks (claims C1, C7) -/

theorem chunksExact_length_le (n : ℕ) (hn : 0 < n) :
    ∀ (len : ℕ) (l : List α), l.length ≤ len → ∀ c ∈ chunksExact n l, c.length = n := by
  intro len
  induction len with
  | zero =>
    intro l hl c hc
    have hnil : l = [] := List.eq_nil_of_length_eq_zero (Nat.le_zero.mp hl)
    subst hnil
    rw [chunksExact_eq, if_neg (by simp; omega)] at hc
    simp at hc
  | succ len ih =>
    intro l hl c hc
    rw [chunksExact_eq] at hc
    by_cases hcond : 0 < n ∧ n ≤ l.length
    · rw [if_pos hcond] at hc
      rcases List.mem_cons.mp hc with rfl | hc'
      · rw [List.length_take]
        omega
      · exact ih (l.drop n) (by rw [List.length_drop]; omega) c hc'
    · rw [if_neg hcond] at hc
      simp at hc

theorem chunksExact_length_mem (n : ℕ) (hn : 0 < n) (l : List α) :
    ∀ c ∈ chunksExact n l, c.length = n :=
  chunksExact_length_le n hn l.length l (le_refl _)

theorem chunksExact_count_le (n : ℕ) (hn : 0 < n) :
    ∀ (len : ℕ) (l : List α), l.length ≤ len →
      (chunksExact n l).length = l.length / n := by
  intro len
  induction len with
  | zero =>
    intro l hl
    have hnil : l = [] := List.eq_nil_of_length_eq_zero (Nat.le_zero.mp hl)
    subst hnil
    rw [chunksExact_eq, if_neg (by simp; omega)]
    simp
  | succ len ih =>
    intro l hl
    rw [chunksExact_eq]
    by_cases hcond : 0 < n ∧ n ≤ l.length
    · rw [if_pos hcond, List.length_cons,
        ih (l.drop n) (by rw [List.length_drop]; omega), List.length_drop]
      exact (Nat.div_eq_sub_div hn hcond.2).symm
    · rw [if_neg hcond]
      have hlt : l.length < n := by omega
      rw [List.length_nil, Nat.div_eq_of_lt hlt]

theorem chunksExact_count (n : ℕ) (hn : 0 < n) (l : List α) :
    (chunksExact n l).length = l.length / n :=
  chunksExact_count_le n hn l.length l (le_refl _)

theorem chunksExact_eq_nil_iff (n : ℕ) (hn : 0 < n) (l : List α) :
    chunksExact n l = [] ↔ l.length < n := by
  rw [chunksExact_eq]
  by_cases hcond : 0 < n ∧ n ≤ l.length
  · rw [if_pos hcond]
    simp
    omega
  · rw [if_neg hcond]
    simp
    omega

theorem mapExcept_convert (n : ℕ) :
    ∀ (l : List (List Bool)), (∀ c ∈ l, c.length = n) →
      mapExcept (fun chunk => convert_le_checked n (chunk.map toFBit)) l =
        if l = [] ∨ n ≤ CAPACITY then
          .ok (l.map (fun c => convert_le_val (c.map toFBit)))
        else .error "Number of bits is too large!" := by
  intro l
  induction l with
  | nil => intro _; simp [mapExcept]
  | cons c t ih =>
    intro hlen
    have hc : ((c.map toFBit).reverse).length = n := by
      rw [List.length_reverse, List.length_map]
      exact hlen c (by simp)
    by_cases hcap : n ≤ CAPACITY
    · have hfc : convert_le_checked n (c.map toFBit) =
          .ok (convert_le_val (c.map toFBit)) := by
        unfold convert_le_checked convert_be_checked
        rw [if_neg (by rw [hc]; exact fun hne => hne rfl), if_neg (by omega)]
        rfl
      simp only [mapExcept, hfc]
      rw [ih (fun x hx => hlen x (by simp [hx]))]
      rw [if_pos (Or.inr hcap), if_pos (Or.inr hcap)]
      rfl
    · have hfc : convert_le_checked n (c.map toFBit) =
          .error "Number of bits is too large!" := by
        unfold convert_le_checked convert_be_checked
        rw [if_neg (by rw [hc]; exact fun hne => hne rfl), if_pos (by omega)]
      simp only [mapExcept, hfc]
      rw [if_neg (by simp; omega)]

theorem predict_bits_length (m : WnnChipModel) (W H : ℕ) (img : ℕ → ℕ → ℕ) :
    (predict_bits m W H img).length = m.bits_per_input * (W * H) := by
  unfold predict_bits
  rw [binarize_bits_closed, List.length_map, idxList_length]

theorem permuted_inputs_length (m : WnnChipModel) (W H : ℕ) (img : ℕ → ℕ → ℕ) :
    (permuted_inputs m W H img).length = m.input_permutation.length := by
  unfold permuted_inputs
  rw [List.length_map]

theorem predict_ok_inv (m : WnnChipModel) (W H : ℕ) (img : ℕ → ℕ → ℕ) (scores : List F)
    (h : predict m W H img = .ok scores) :
    scores = predict_scores m W H img ∧
    m.n_inputs = (joint_inputs_val m W H img).length := by
  unfold predict at h
  split at h
  · exact Except.noConfusion h
  · split at h
    · exact Except.noConfusion h
    · split at h
      · exact Except.noConfusion h
      · rename_i h1 h2 h3
        have hn0 : 0 < m.n_bits := Nat.pos_of_ne_zero h3
        have hlen := chunksExact_length_mem m.n_bits hn0 (permuted_inputs m W H img)
        split at h
        · exact Except.noConfusion h
        · rename_i joint heq
          split at h
          · exact Except.noConfusion h
          · rename_i h5
            injection h with hs
            rw [mapExcept_convert m.n_bits _ hlen] at heq
            by_cases h4 : chunksExact m.n_bits (permuted_inputs m W H img) = [] ∨
                m.n_bits ≤ CAPACITY
            · rw [if_pos h4] at heq
              injection heq with hj
              constructor
              · rw [← hs, ← hj]
                rfl
              · rw [not_ne_iff.mp h5, ← hj]
                rfl
            · rw [if_neg h4] at heq
              exact Except.noConfusion heq

/-- **C7** (amended): `predict` succeeds exactly when every threshold is
at most 256, every permutation value is in range of the binarized bits,
the window size is nonzero, the window size fits the field capacity (or
no full chunk exists at all), and `n_inputs` equals the number of full
`n_bits`-chunks of the permuted bits.  A non-bijective in-range
permutation or a window size that merely fails to divide the permuted
bit count is *not* rejected. -/
theorem c7_construction_checks (m : WnnChipModel) (W H : ℕ) (img : ℕ → ℕ → ℕ) :
    (predict m W H img).isOk = true ↔
      (thresholds_ok m W H = true ∧
       (∀ k ∈ m.input_permutation, k < m.bits_per_input * (W * H)) ∧
       m.n_bits ≠ 0 ∧
       (m.n_bits ≤ CAPACITY ∨ m.input_permutation.length < m.n_bits) ∧
       m.n_inputs = m.input_permutation.length / m.n_bits) := by
  unfold predict
  by_cases h1 : thresholds_ok m W H = true
  case neg =>
    rw [if_pos h1]
    simp [Except.isOk, Except.toBool, h1]
  case pos =>
    rw [if_neg (not_not_intro h1)]
    by_cases h2 : m.input_permutation.any
        (fun k => decide ((predict_bits m W H img).length ≤ k)) = true
    case pos =>
      rw [if_pos h2]
      rcases List.any_eq_true.mp h2 with ⟨k, hk, hkp⟩
      rw [decide_eq_true_eq, predict_bits_length] at hkp
      simp only [Except.isOk, Except.toBool]
      constructor
      · intro hc
        exact absurd hc (by simp)
      · rintro ⟨_, hAll, _⟩
        exact absurd (hAll k hk) (by omega)
    case neg =>
      rw [if_neg h2]
      have hAll : ∀ k ∈ m.input_permutation, k < m.bits_per_input * (W * H) := by
        intro k hk
        have h2f := List.any_eq_false.mp (Bool.eq_false_iff.mpr h2) k hk
        rw [decide_eq_true_eq, predict_bits_length] at h2f
        omega
      by_cases h3 : m.n_bits = 0
      case pos =>
        rw [if_pos h3]
        simp only [Except.isOk, Except.toBool]
        constructor
        · intro hc
          exact absurd hc (by simp)
        · rintro ⟨_, _, hne, _⟩
          exact absurd h3 hne
      case neg =>
        rw [if_neg h3]
        have hn0 : 0 < m.n_bits := Nat.pos_of_ne_zero h3
        have hlen := chunksExact_length_mem m.n_bits hn0 (permuted_inputs m W H img)
        rw [mapExcept_convert m.n_bits _ hlen]
        by_cases h4 : chunksExact m.n_bits (permuted_inputs m W H img) = [] ∨
            m.n_bits ≤ CAPACITY
        case pos =>
          rw [if_pos h4]
          split
          · rename_i e heq
            exact absurd heq (by simp)
          · rename_i joint heq
            injection heq with hj
            by_cases h5 : m.n_inputs = joint.length
            case pos =>
              rw [if_neg (not_ne_iff.mpr h5)]
              simp only [Except.isOk, Except.toBool]
              constructor
              · intro _
                refine ⟨h1, hAll, h3, ?_, ?_⟩
                · rcases h4 with h4 | h4
                  · right
                    have hnil := (chunksExact_eq_nil_iff m.n_bits hn0 _).mp h4
                    rwa [permuted_inputs_length] at hnil
                  · left
                    exact h4
                · rw [h5, ← hj, List.length_map, chunksExact_count m.n_bits hn0,
                    permuted_inputs_length]
              · intro _
                trivial
            case neg =>
              rw [if_pos h5]
              simp only [Except.isOk, Except.toBool]
              constructor
              · intro hc
                exact absurd hc (by simp)
              · rintro ⟨_, _, _, _, hEq⟩
                exfalso
                apply h5
                rw [hEq, ← hj, List.length_map, chunksExact_count m.n_bits hn0,
                  permuted_inputs_length]
        case neg =>
          rw [if_neg h4]
          split
          · rename_i e heq
            simp only [Except.isOk, Except.toBool]
            constructor
            · intro hc
              exact absurd hc (by simp)
            · rintro ⟨_, _, _, hcap, _⟩
              exfalso
              push_neg at h4
              rcases hcap with hcap | hcap
              · exact absurd hcap (by omega)
              · apply h4.1
                rw [chunksExact_eq_nil_iff m.n_bits hn0, permuted_inputs_length]
                exact hcap
          · rename_i joint heq
            exact absurd heq (by simp)

theorem class_responses_eq (m : WnnChipModel) (W H : ℕ) (img : ℕ → ℕ → ℕ) (c : ℕ) :
    class_responses m W H img c =
      (List.range (predict_hashes m W H img).length).map (fun i =>
        bloom_lookup m.bloom_filter_arrays ((predict_hashes m W H img).getD i 0)
          (c * (predict_hashes m W H img).length + i)) := by
  unfold class_responses
  exact enum_map_getD
    (fun i hv => bloom_lookup m.bloom_filter_arrays hv
      (c * (predict_hashes m W H img).length + i))
    0 (predict_hashes m W H img)

/-- **C1**: a successful `predict` yields exactly `n_classes` score
witnesses in class order; the score of class `c` accumulates the bloom
responses of lookups `(hash_i, c * n_inputs + i)` for `i < n_inputs`;
and `synthesize` binds the `c`-th score to public-output slot `c`. -/
theorem c1_predict_scores (m : WnnChipModel) (W H : ℕ) (img : ℕ → ℕ → ℕ)
    (scores : List F) (h : predict m W H img = .ok scores) :
    scores.length = m.n_classes ∧
    (∀ c, c < m.n_classes →
      scores.getD c 0 =
        accumulate_responses ((List.range m.n_inputs).map (fun i =>
          bloom_lookup m.bloom_filter_arrays ((predict_hashes m W H img).getD i 0)
            (c * m.n_inputs + i)))) ∧
    wnn_synthesize m W H img = .ok (scores.enum.map (fun pr => (pr.2, pr.1))) ∧
    (∀ c, c < m.n_classes →
      (scores.enum.map (fun pr => (pr.2, pr.1))).getD c (0, 0) = (scores.getD c 0, c)) := by
  obtain ⟨hs, hn⟩ := predict_ok_inv m W H img scores h
  have hhl : (predict_hashes m W H img).length = m.n_inputs := by
    unfold predict_hashes
    rw [List.length_map, hn]
  have hlen : scores.length = m.n_classes := by
    rw [hs]
    unfold predict_scores
    rw [List.length_map, List.length_range]
  refine ⟨hlen, ?_, ?_, ?_⟩
  · intro c hc
    rw [hs]
    unfold predict_scores
    rw [getD_map_lt _ _ c 0 0 (by rw [List.length_range]; exact hc),
      getD_range _ _ _ hc]
    congr 1
    rw [class_responses_eq, hhl]
  · unfold wnn_synthesize
    rw [h]
  · intro c hc
    have he := enum_map_getD (fun i s => ((s, i) : F × ℕ)) (0 : F) scores
    rw [he, getD_map_lt _ _ c (0, 0) 0 (by rw [List.length_range, hlen]; exact hc),
      getD_range _ _ _ (by rw [hlen]; exact hc)]

/-- Witness for C1: the example chip on a 1×2 zero image; `predict`
succeeds with the single class score 1. -/
theorem c1_witness :
    predict exModel 1 2 exImg0 = .ok [(1 : F)] ∧
    [(1 : F)].length = exModel.n_classes ∧
    wnn_synthesize exModel 1 2 exImg0 =
      .ok ([(1 : F)].enum.map (fun pr => (pr.2, pr.1))) :=
  ⟨by decide,
   (c1_predict_scores exModel 1 2 exImg0 [1] (by decide)).1,
   (c1_predict_scores exModel 1 2 exImg0 [1] (by decide)).2.2.1⟩

/-- **C7** counterexample: on `exModelBad`, `predict` succeeds — the
non-bijective permutation is silently accepted (index 0 reused) and the
non-dividing window size silently drops the trailing permuted bit — even
though the permutation is not a bijection on `[0, totalBits)` and
`n_bits` does not divide the permuted bit count. -/
theorem c7_counterexample :
    (predict exModelBad 1 2 exImg0).isOk = true ∧
    ¬ exModelBad.input_permutation.Nodup ∧
    exModelBad.input_permutation.length % exModelBad.n_bits ≠ 0 ∧
    exModelBad.input_permutation.length ≠ exModelBad.bits_per_input * (1 * 2) ∧
    (chunksExact exModelBad.n_bits (permuted_inputs exModelBad 1 2 exImg0)).length *
        exModelBad.n_bits ≠ (permuted_inputs exModelBad 1 2 exImg0).length :=
  ⟨by decide, by decide, by decide, by decide, by decide⟩
